import Mathlib

/-!
Verification of the NeMo text-to-speech tokenizer utilities
(`nemo/collections/common/tokenizers/text_to_speech/tokenizer_utils.py` and
`scripts/dataset_processing/tts/indictts/indic_syllable_extractor.py`).

Strings are modelled as `List Char`.  External library primitives
(`unicodedata` NFC normalization, the `indicnlp` syllabifier) are modelled
as explicit function parameters; everything else is translated directly
from the Python source.
-/

/-! ### Character classes from the Python standard library -/

/-- Membership in Python `string.punctuation`: exactly the 32 ASCII
punctuation characters (codes 33-47, 58-64, 91-96, 123-126). -/
def pyStringPunctuation (c : Char) : Bool :=
  (33 ≤ c.toNat && c.toNat ≤ 47) || (58 ≤ c.toNat && c.toNat ≤ 64) ||
  (91 ≤ c.toNat && c.toNat ≤ 96) || (123 ≤ c.toNat && c.toNat ≤ 126)

/-- Membership in Python `string.whitespace`: space, tab, newline, carriage
return, vertical tab, form feed. -/
def pyStringWhitespace (c : Char) : Bool :=
  c.toNat == 32 || (9 ≤ c.toNat && c.toNat ≤ 13)

/-- Python `str.isdigit` restricted to the character ranges relevant to the
code under study: ASCII digits and Devanagari digits.  The clustering
functions are only sensitive to the predicate, not to its exact extension
over the rest of Unicode, so the embedding does not carry the full tables. -/
def pyIsDigit (c : Char) : Bool :=
  (48 ≤ c.toNat && c.toNat ≤ 57) || (0x966 ≤ c.toNat && c.toNat ≤ 0x96F)

/-- The skip test of the heuristic clusterer:
`char.isdigit() or char in string.punctuation or char in string.whitespace`. -/
def isSkippedChar (c : Char) : Bool :=
  pyIsDigit c || pyStringPunctuation c || pyStringWhitespace c

/-- `LATIN_ALPHABET_BASIC = "A-Za-z"` as a character predicate. -/
def isLatinBasic (c : Char) : Bool :=
  (65 ≤ c.toNat && c.toNat ≤ 90) || (97 ≤ c.toNat && c.toNat ≤ 122)

/-- `ACCENTED_CHARS = "À-ÖØ-öø-ÿ"` as a character predicate
(codes 0xC0-0xD6, 0xD8-0xF6, 0xF8-0xFF). -/
def isAccentedChar (c : Char) : Bool :=
  (192 ≤ c.toNat && c.toNat ≤ 214) || (216 ≤ c.toNat && c.toNat ≤ 246) ||
  (248 ≤ c.toNat && c.toNat ≤ 255)

/-- `LATIN_CHARS_ALL = LATIN_ALPHABET_BASIC + ACCENTED_CHARS`. -/
def isLatinAll (c : Char) : Bool := isLatinBasic c || isAccentedChar c

/-! ### Special characters -/

/-- Right single quotation mark U+2019. -/
def rightSingleQuotationMark : Char := Char.ofNat 0x2019

/-- Left double quotation mark U+201C. -/
def leftDoubleQuotationMark : Char := Char.ofNat 0x201C

/-- Right double quotation mark U+201D. -/
def rightDoubleQuotationMark : Char := Char.ofNat 0x201D

/-- ASCII apostrophe, code 39. -/
def apostropheChar : Char := Char.ofNat 39

/-! ### Unicode normalizer and glyph folding -/

/-- The `SYNOGLYPH2ASCII` dictionary: right single quotation mark maps to the
ASCII apostrophe; left and right double quotation marks map to the straight
ASCII double quote; every other character is absent from the dictionary. -/
def SYNOGLYPH2ASCII (c : Char) : Option Char :=
  if c = rightSingleQuotationMark then some apostropheChar
  else if c = rightDoubleQuotationMark then some '"'
  else if c = leftDoubleQuotationMark then some '"'
  else none

/-- One character of the glyph-folding step of `english_text_preprocessing`:
`char if char not in SYNOGLYPH2ASCII else SYNOGLYPH2ASCII[char]`. -/
def foldGlyphChar (c : Char) : Char := (SYNOGLYPH2ASCII c).getD c

/-- The glyph-folding step (the spec calls it `fold_quotes`), applied
characterwise over the text exactly as in line 69 of `tokenizer_utils.py`. -/
def fold_quotes (l : List Char) : List Char := l.map foldGlyphChar

/-- Modelled from the spec: `unicodedata.normalize("NFC", ...)` is an
external library primitive, passed in as the parameter `nfc`; per the
documented contract of `unicodedata.is_normalized`, the check
`is_normalized("NFC", text)` is equivalent to `nfc text = text`.
With that reading this is the body of `normalize_unicode_text`:
apply NFC only when the text is not already normalized. -/
def normalize_unicode_text (nfc : List Char → List Char) (text : List Char) : List Char :=
  if nfc text = text then text else nfc text

/-- `any_locale_text_preprocessing`: NFC-normalize, then convert the right
single quotation mark U+2019 to an ASCII apostrophe, characterwise. -/
def any_locale_text_preprocessing (nfc : List Char → List Char) (text : List Char) : List Char :=
  (normalize_unicode_text nfc text).map
    fun c => if c = rightSingleQuotationMark then apostropheChar else c

/-! ### Heuristic grapheme clusterer -/

/-- The body of the clustering loop shared verbatim by
`generate_grapheme_clusters` and `indic_syllable_text_processing`, for loop
indices `i ≥ 1`: skipped characters are dropped; a character in
`lang_symbols` is appended to the open cluster; any other character closes
the open cluster (appending it to `clusters`, even when it is empty) and
opens a new cluster. -/
def clustersAux (lang_symbols : List Char) :
    List (List Char) → List Char → List Char → List (List Char)
  | clusters, current, [] => clusters ++ [current]
  | clusters, current, c :: rest =>
    if isSkippedChar c then clustersAux lang_symbols clusters current rest
    else if c ∈ lang_symbols then clustersAux lang_symbols clusters (current ++ [c]) rest
    else clustersAux lang_symbols (clusters ++ [current]) [c] rest

/-- `generate_grapheme_clusters(text, lang_symbols)` from
`indic_syllable_extractor.py`.  The index-0 character receives special
treatment in the source (`if i == 0: current_cluster += char`), which only
applies when it is not skipped; the final `clusters.append(current_cluster)`
is unconditional, so the empty text yields `[""]`. -/
def generate_grapheme_clusters (text : List Char) (lang_symbols : List Char) :
    List (List Char) :=
  match text with
  | [] => [[]]
  | c :: rest =>
    if isSkippedChar c then clustersAux lang_symbols [] [] rest
    else clustersAux lang_symbols [] [c] rest

/-- `indic_syllable_text_processing(text, lang_symbols)`: applies
`any_locale_text_preprocessing` and then runs the clustering loop, whose
body is literally identical to `generate_grapheme_clusters`. -/
def indic_syllable_text_processing (nfc : List Char → List Char)
    (text : List Char) (lang_symbols : List Char) : List (List Char) :=
  generate_grapheme_clusters (any_locale_text_preprocessing nfc text) lang_symbols

/-! ### Linguistic grapheme clusterer (external capability) -/

/-- Python `str.split()` with no arguments: split on whitespace runs and
drop empty pieces. -/
def pySplit (l : List Char) : List (List Char) :=
  (l.splitOnP pyStringWhitespace).filter fun w => !w.isEmpty

/-- The message of the `ImportError` raised by
`indic_syllable_text_processing_improved` when the `indicnlp` import failed. -/
def indicImportMsg : String :=
  "The indic_nlp library is not installed. Please install the indic_nlp library to use this function."

/-- The accumulation loop of `indic_syllable_text_processing_improved` when
the syllabifier is available: syllabify each word and insert a single-space
cluster after every word except the last. -/
def improvedLoop (syllabify : List Char → List Char → List (List Char))
    (lang_id : List Char) : List (List Char) → List (List Char)
  | [] => []
  | [w] => syllabify w lang_id
  | w :: ws => syllabify w lang_id ++ [[' ']] ++ improvedLoop syllabify lang_id ws

/-- `indic_syllable_text_processing_improved(text, lang_id)`.  The external
`syllabifier.orthographic_syllabify_improved` is modelled by the optional
parameter: `none` models the failed `indicnlp` import, in which case the
first loop iteration raises `NameError` with name `syllabifier`, which the
`except` clause converts into an `ImportError`; when the word list is empty
the loop body never runs and the function returns the empty list. -/
def indic_syllable_text_processing_improved (nfc : List Char → List Char)
    (syllabify? : Option (List Char → List Char → List (List Char)))
    (text : List Char) (lang_id : List Char) : Except String (List (List Char)) :=
  let t := any_locale_text_preprocessing nfc text
  let words := pySplit t
  match syllabify? with
  | some f => Except.ok (improvedLoop f lang_id words)
  | none => if words.isEmpty then Except.ok [] else Except.error indicImportMsg

/-! ### Tokenizer: the regular expressions and their scan -/

/-- The character class of the first alternative of `_WORDS_RE_EN` and
`_WORDS_RE_ANY_LOCALE`: a word-class character, a hyphen, or an apostrophe
(the regex body is `[W]+(?:[W\-']*[W]+)*` for word class `W`). -/
def wordClassChar (wc : Char → Bool) (c : Char) : Bool :=
  wc c || c == '-' || c == apostropheChar

/-- The character class of the third alternative `[^W|]+`: neither a
word-class character nor a pipe. -/
def sepClassChar (wc : Char → Bool) (c : Char) : Bool :=
  !wc c && c != '|'

/-- Drop the trailing hyphens and apostrophes from a run of word-class
characters: the greedy match of `[W]+(?:[W\-']*[W]+)*` at a position is the
longest prefix drawn from `wordClassChar` that ends with a word-class
character. -/
def trimTrailingNonWord (wc : Char → Bool) (r : List Char) : List Char :=
  ((r.reverse).dropWhile fun c => !wc c).reverse

/-- One non-overlapping match of the three-alternative pattern, or a
character skipped by the regex engine because no alternative matches there
(which happens exactly at a pipe with no later closing pipe). -/
inductive RawMatch where
  | word : List Char → RawMatch
  | unchanged : List Char → RawMatch
  | sep : List Char → RawMatch
  | skipped : Char → RawMatch
deriving DecidableEq

/-- The left-to-right scan of `re.findall` over the three-alternative
pattern `([W]+(?:[W\-']*[W]+)*)|(\|[^|]*\|)|([^W|]+)`, parameterized by the
word-character class `wc`.  At each position: a word-class character starts
a greedy word match (a maximal word-class run with trailing hyphens and
apostrophes given back); a pipe starts an unchanged-span match through the
next pipe if one exists and otherwise matches nothing, in which case the
engine advances one character; any other character starts a maximal
separator run.  The fuel argument only drives the recursion; `regex_scan`
supplies `l.length`, which is always sufficient since every step consumes
at least one character. -/
def scanAux (wc : Char → Bool) : Nat → List Char → List RawMatch
  | _, [] => []
  | 0, _ :: _ => []
  | fuel + 1, c :: rest =>
    if wc c then
      let w := trimTrailingNonWord wc ((c :: rest).takeWhile (wordClassChar wc))
      RawMatch.word w :: scanAux wc fuel ((c :: rest).drop w.length)
    else if c = '|' then
      match rest.dropWhile (fun x => x != '|') with
      | [] => RawMatch.skipped c :: scanAux wc fuel rest
      | _ :: rest2 =>
        RawMatch.unchanged (rest.takeWhile (fun x => x != '|')) :: scanAux wc fuel rest2
    else
      let s := (c :: rest).takeWhile (sepClassChar wc)
      RawMatch.sep s :: scanAux wc fuel ((c :: rest).drop s.length)

/-- The full scan of a text. -/
def regex_scan (wc : Char → Bool) (l : List Char) : List RawMatch :=
  scanAux wc l.length l

/-- A `re.findall` result element for a three-group pattern:
`(maybe_word, maybe_without_changes, maybe_punct)`. -/
abbrev Groups := List Char × List Char × List Char

/-- The group triple of a match: exactly one group is nonempty, and the
unchanged group retains its pipe delimiters, as in Python.  A skipped
character produces no `findall` entry. -/
def groupsOfMatch : RawMatch → Option Groups
  | RawMatch.word s => some (s, [], [])
  | RawMatch.unchanged inner => some ([], '|' :: (inner ++ ['|']), [])
  | RawMatch.sep s => some ([], [], s)
  | RawMatch.skipped _ => none

/-- `_WORDS_RE_EN.findall(text)` and `_WORDS_RE_ANY_LOCALE.findall(text)`,
parameterized by the word-character class. -/
def regex_findall (wc : Char → Bool) (l : List Char) : List Groups :=
  (regex_scan wc l).filterMap groupsOfMatch

/-! ### Tokenizer: `_word_tokenize` -/

/-- A token: a list of pieces and the `without_changes` flag. -/
abbrev Token := List (List Char) × Bool

/-- Python `str.lower` (ASCII range, which is all the word classes admit
for the lowercased English path). -/
def pyLower (l : List Char) : List Char := l.map Char.toLower

/-- Python slice `[1:-1]`. -/
def pySlice1m1 (l : List Char) : List Char := (l.drop 1).dropLast

/-- The message of the `ValueError` raised by `_word_tokenize` on an
all-empty group triple. -/
def emptyMatchMsg : String :=
  "This is not expected. Found empty string. Please validate your regular expression pattern _WORDS_RE_EN or _WORDS_RE_ANY_LOCALE."

/-- One iteration of the `_word_tokenize` loop: dispatch on the first
nonempty group, in source order (word, then punctuation, then unchanged);
an all-empty triple raises `ValueError`. -/
def word_tokenize_one (is_lower : Bool) (g : Groups) : Except String Token :=
  let (maybe_word, maybe_without_changes, maybe_punct) := g
  if maybe_word ≠ [] then
    Except.ok ([if is_lower then pyLower maybe_word else maybe_word], false)
  else if maybe_punct ≠ [] then
    Except.ok ([maybe_punct], false)
  else if maybe_without_changes ≠ [] then
    Except.ok ((pySlice1m1 maybe_without_changes).splitOn ' ', true)
  else
    Except.error emptyMatchMsg

/-- `_word_tokenize(words, is_lower)`: process the match list in order,
aborting with the `ValueError` if any triple is all-empty. -/
def wordTokenizeList : List Groups → Bool → Except String (List Token)
  | [], _ => Except.ok []
  | g :: gs, is_lower =>
    match word_tokenize_one is_lower g with
    | Except.error e => Except.error e
    | Except.ok tok =>
      match wordTokenizeList gs is_lower with
      | Except.error e => Except.error e
      | Except.ok toks => Except.ok (tok :: toks)

/-- `english_word_tokenize(text)`: findall with `_WORDS_RE_EN`, then
`_word_tokenize` with lowercasing. -/
def english_word_tokenize (text : List Char) : Except String (List Token) :=
  wordTokenizeList (regex_findall isLatinBasic text) true

/-- `any_locale_word_tokenize(text)`: findall with `_WORDS_RE_ANY_LOCALE`,
then `_word_tokenize` without lowercasing. -/
def any_locale_word_tokenize (text : List Char) : Except String (List Token) :=
  wordTokenizeList (regex_findall isLatinAll text) false

/-! ### Derived notions used by the stated properties -/

/-- The characters of the input that a match consumed (an unchanged match
consumed its two pipe delimiters; a skipped character consumed itself). -/
def matchConsumed : RawMatch → List Char
  | RawMatch.word s => s
  | RawMatch.unchanged inner => '|' :: (inner ++ ['|'])
  | RawMatch.sep s => s
  | RawMatch.skipped c => [c]

/-- The token a match turns into under `_word_tokenize` without
lowercasing (`none` for a skipped character). -/
def tokenOfMatch : RawMatch → Option Token
  | RawMatch.word s => some ([s], false)
  | RawMatch.unchanged inner => some (inner.splitOn ' ', true)
  | RawMatch.sep s => some ([s], false)
  | RawMatch.skipped _ => none

/-- Reconstruction of one token: the pieces of a protected token joined by
a single ASCII space, the single piece of any other token as is. -/
def reconstructToken (t : Token) : List Char :=
  if t.2 then List.intercalate [' '] t.1 else t.1.flatten

/-- Reconstruction of a token list: concatenation of the per-token
reconstructions in order. -/
def reconstructTokens (ts : List Token) : List Char :=
  (ts.map reconstructToken).flatten

/-- Every skipped character of a scan is a pipe. -/
def skippedOnlyPipes (ms : List RawMatch) : Bool :=
  ms.all fun m =>
    match m with
    | RawMatch.skipped c => c == '|'
    | _ => true

/-- The well-formedness facts that hold of every match a scan produces:
word and separator matches are nonempty and pipe-free, unchanged interiors
are pipe-free, and only pipes are ever skipped. -/
def matchOk : RawMatch → Prop
  | RawMatch.word s => s ≠ [] ∧ '|' ∉ s
  | RawMatch.unchanged inner => '|' ∉ inner
  | RawMatch.sep s => s ≠ [] ∧ '|' ∉ s
  | RawMatch.skipped c => c = '|'

/-- Whether an `Except` value is an error. -/
def exceptIsError {ε α : Type} : Except ε α → Bool
  | Except.error _ => true
  | Except.ok _ => false

/-- Decidable equality for `Except`, so that concrete tokenizer results can
be settled by `decide`. -/
instance exceptDecEq {ε α : Type} [DecidableEq ε] [DecidableEq α] :
    DecidableEq (Except ε α) := fun a b =>
  match a, b with
  | Except.error e, Except.error f =>
    if h : e = f then isTrue (by rw [h])
    else isFalse (by intro hh; injection hh; contradiction)
  | Except.ok x, Except.ok y =>
    if h : x = y then isTrue (by rw [h])
    else isFalse (by intro hh; injection hh; contradiction)
  | Except.error _, Except.ok _ => isFalse (by intro h; injection h)
  | Except.ok _, Except.error _ => isFalse (by intro h; injection h)

/-! ### Lemmas about the heuristic clusterer -/

/-- The clustering loop distributes over its accumulator: the concatenation
of all produced clusters is the accumulator plus the retained characters of
the remaining text. -/
theorem clustersAux_flatten (S : List Char) :
    ∀ (l : List Char) (cs : List (List Char)) (cur : List Char),
      (clustersAux S cs cur l).flatten =
        cs.flatten ++ cur ++ l.filter (fun c => !isSkippedChar c) := by
  intro l
  induction l with
  | nil => intro cs cur; simp [clustersAux]
  | cons c rest ih =>
    intro cs cur
    by_cases h1 : isSkippedChar c
    · simp [clustersAux, h1, ih]
    · by_cases h2 : c ∈ S
      · simp [clustersAux, h1, h2, ih]
      · simp [clustersAux, h1, h2, ih]

/-- Concatenating the clusters of `generate_grapheme_clusters` recovers the
retained (non-digit, non-punctuation, non-whitespace) characters. -/
theorem generate_grapheme_clusters_flatten (text lang_symbols : List Char) :
    (generate_grapheme_clusters text lang_symbols).flatten =
      text.filter fun c => !isSkippedChar c := by
  match text with
  | [] => simp [generate_grapheme_clusters]
  | c :: rest =>
    by_cases h1 : isSkippedChar c
    · simp [generate_grapheme_clusters, h1, clustersAux_flatten]
    · simp [generate_grapheme_clusters, h1, clustersAux_flatten]

/-! ### Claim theorems -/

/-- C1: the claim says no cluster produced by the heuristic clusterer is
ever empty, in particular for empty preprocessed text or text beginning
with a skipped character.  The code refutes this: the final unconditional
`clusters.append(current_cluster)` yields `[""]` on the empty text, and
when index 0 is skipped the first retained non-symbol character flushes the
still-empty current cluster, yielding a leading `""`.  This theorem
evaluates the code at those inputs. -/
theorem heuristic_clusterer_emits_empty_cluster :
    generate_grapheme_clusters [] [] = [[]] ∧
    generate_grapheme_clusters [' ', 'a'] [] = [[], ['a']] ∧
    [] ∈ generate_grapheme_clusters [' ', 'a'] [] ∧
    indic_syllable_text_processing id [] [] = [[]] := by
  decide

/-- C5: for every input text and every combining-symbol set, the
left-to-right concatenation of the clusters of the heuristic clusterer
equals the (preprocessed, for `indic_syllable_text_processing`) input with
all digit, punctuation, and whitespace characters removed. -/
theorem cluster_concat_eq_filtered_input :
    (∀ (text lang_symbols : List Char),
      (generate_grapheme_clusters text lang_symbols).flatten =
        text.filter fun c => !isSkippedChar c) ∧
    (∀ (nfc : List Char → List Char) (text lang_symbols : List Char),
      (indic_syllable_text_processing nfc text lang_symbols).flatten =
        (any_locale_text_preprocessing nfc text).filter fun c => !isSkippedChar c) := by
  refine ⟨generate_grapheme_clusters_flatten, ?_⟩
  intro nfc text S
  exact generate_grapheme_clusters_flatten (any_locale_text_preprocessing nfc text) S

/-- C6: `normalize_unicode_text` is idempotent, and is the identity on text
already in NFC form, for any NFC primitive satisfying the Unicode-standard
idempotence contract. -/
theorem normalize_unicode_text_idempotent (nfc : List Char → List Char)
    (hidem : ∀ t, nfc (nfc t) = nfc t) (t : List Char) :
    normalize_unicode_text nfc (normalize_unicode_text nfc t) =
      normalize_unicode_text nfc t ∧
    (nfc t = t → normalize_unicode_text nfc t = t) := by
  constructor
  · unfold normalize_unicode_text
    by_cases h : nfc t = t
    · simp [h]
    · rw [if_neg h]
      simp [hidem t]
  · intro h
    unfold normalize_unicode_text
    simp [h]

/-- Witness for C6 at the identity primitive (which is the true NFC map on
ASCII text) and a concrete input. -/
theorem normalize_unicode_text_idempotent_witness :
    normalize_unicode_text id (normalize_unicode_text id (String.toList "abc")) =
      normalize_unicode_text id (String.toList "abc") ∧
    (id (String.toList "abc") = String.toList "abc" →
      normalize_unicode_text id (String.toList "abc") = String.toList "abc") :=
  normalize_unicode_text_idempotent id (fun _ => rfl) (String.toList "abc")

/-- C9: the glyph-folding step replaces the right single quotation mark by
the ASCII apostrophe and the left and right double quotation marks by the
straight ASCII double quote, changes every other character to itself, and
in particular maps the Scenario C input to its expected output. -/
theorem fold_quotes_spec :
    fold_quotes (String.toList "It’s a “test”") =
      ['I', 't', apostropheChar, 's', ' ', 'a', ' ', '"', 't', 'e', 's', 't', '"'] ∧
    foldGlyphChar rightSingleQuotationMark = apostropheChar ∧
    foldGlyphChar leftDoubleQuotationMark = '"' ∧
    foldGlyphChar rightDoubleQuotationMark = '"' ∧
    (∀ c : Char, c ≠ rightSingleQuotationMark → c ≠ leftDoubleQuotationMark →
      c ≠ rightDoubleQuotationMark → foldGlyphChar c = c) := by
  refine ⟨by decide, by decide, by decide, by decide, ?_⟩
  intro c h1 h2 h3
  simp [foldGlyphChar, SYNOGLYPH2ASCII, h1, h2, h3]

/-- Witness for C9 at a concrete unfolded character. -/
theorem fold_quotes_spec_witness :
    foldGlyphChar 'x' = 'x' ∧
    fold_quotes (String.toList "It’s a “test”") =
      ['I', 't', apostropheChar, 's', ' ', 'a', ' ', '"', 't', 'e', 's', 't', '"'] :=
  ⟨fold_quotes_spec.2.2.2.2 'x' (by decide) (by decide) (by decide),
   fold_quotes_spec.1⟩

/-- C2 (counterexample): the claimed five-token result of Scenario A, with
the comma and the following space as two separate separator tokens, is not
what `english_word_tokenize` returns: the third alternative `[^A-Za-z|]+`
matches the maximal run `", "` as a single separator. -/
theorem scenarioA_five_token_claim_false :
    english_word_tokenize (String.toList "Hello, |NVIDIA unchanged|!") ≠
      Except.ok [([String.toList "hello"], false), ([[',']], false), ([[' ']], false),
                 ([String.toList "NVIDIA", String.toList "unchanged"], true),
                 ([['!']], false)] := by
  decide

/-- C2 (amended): tokenizing Scenario A yields four tokens, with the comma
and the following space emitted together as one separator token. -/
theorem scenarioA_four_tokens :
    english_word_tokenize (String.toList "Hello, |NVIDIA unchanged|!") =
      Except.ok [([String.toList "hello"], false), ([[',', ' ']], false),
                 ([String.toList "NVIDIA", String.toList "unchanged"], true),
                 ([['!']], false)] := by
  decide

/-- C7 (counterexample): requesting linguistic clustering of the empty text
while the external capability is unavailable does not fail: the word list
is empty, the loop body (and hence the name lookup that would raise) never
runs, and the call returns the empty list. -/
theorem improved_ok_on_empty_text_without_library_cx :
    indic_syllable_text_processing_improved id none [] [] = Except.ok [] := by
  decide

/-- C7 (amended): whenever the preprocessed text contains at least one
whitespace-delimited word, requesting linguistic clustering with the
external syllabifier unavailable fails with the `ImportError` naming the
`indic_nlp` dependency (the role the spec calls `CapabilityUnavailable`),
with no partial output and no fallback to the heuristic clusterer. -/
theorem improved_requires_library (nfc : List Char → List Char)
    (text lang_id : List Char)
    (h : pySplit (any_locale_text_preprocessing nfc text) ≠ []) :
    indic_syllable_text_processing_improved nfc none text lang_id =
      Except.error indicImportMsg := by
  unfold indic_syllable_text_processing_improved
  have hne : (pySplit (any_locale_text_preprocessing nfc text)).isEmpty = false := by
    cases hE : pySplit (any_locale_text_preprocessing nfc text) with
    | nil => exact absurd hE h
    | cons a l => simp
  simp [hne]

/-- Witness for C7 (amended) at a one-word text. -/
theorem improved_requires_library_witness :
    indic_syllable_text_processing_improved id none (String.toList "x") [] =
      Except.error indicImportMsg :=
  improved_requires_library id (String.toList "x") [] (by decide)

/-- C8: if the match list handed to `_word_tokenize` contains an all-empty
group triple (an empty match of the pattern), the call fails with the
`ValueError` (the role the spec calls `InvalidPattern`) rather than
emitting any token list. -/
theorem word_tokenize_empty_triple_errors (ws : List Groups) (b : Bool)
    (h : (([], [], []) : Groups) ∈ ws) :
    exceptIsError (wordTokenizeList ws b) = true := by
  induction ws with
  | nil => simp at h
  | cons g gs ih =>
    rcases List.mem_cons.mp h with hg | hg
    · subst hg
      simp [wordTokenizeList, word_tokenize_one, exceptIsError]
    · have htl := ih hg
      rw [wordTokenizeList]
      cases hfg : word_tokenize_one b g with
      | error e => simp [exceptIsError]
      | ok tok =>
        cases htl2 : wordTokenizeList gs b with
        | error e => simp [exceptIsError]
        | ok toks =>
          rw [htl2] at htl
          simp [exceptIsError] at htl

/-- Witness for C8 at the singleton list holding the empty triple. -/
theorem word_tokenize_empty_triple_errors_witness :
    exceptIsError (wordTokenizeList [(([], [], []) : Groups)] false) = true :=
  word_tokenize_empty_triple_errors [(([], [], []) : Groups)] false (by simp)

/-! ### Lemmas about the tokenizer scan -/

/-- The head of a nonempty `dropWhile` result fails the predicate. -/
theorem dropWhile_head_false {p : Char → Bool} :
    ∀ {l : List Char} {x : Char} {xs : List Char},
      l.dropWhile p = x :: xs → p x = false := by
  intro l
  induction l with
  | nil => intro x xs h; simp at h
  | cons a t ih =>
    intro x xs h
    rw [List.dropWhile_cons] at h
    split at h
    · exact ih h
    · next hpa =>
      injection h with h1 _
      subst h1
      simpa using hpa

/-- The trimmed word followed by the trimmed-away tail is the original run. -/
theorem trimTrailingNonWord_append (wc : Char → Bool) (r : List Char) :
    trimTrailingNonWord wc r ++ ((r.reverse.takeWhile fun c => !wc c)).reverse = r := by
  unfold trimTrailingNonWord
  rw [← List.reverse_append, List.takeWhile_append_dropWhile, List.reverse_reverse]

/-- The greedy word match at a position is an initial segment of the text. -/
theorem word_match_decomp (wc : Char → Bool) (l : List Char) :
    ∃ t, trimTrailingNonWord wc (l.takeWhile (wordClassChar wc)) ++ t = l :=
  ⟨(((l.takeWhile (wordClassChar wc)).reverse.takeWhile fun c => !wc c)).reverse
      ++ l.dropWhile (wordClassChar wc), by
    rw [← List.append_assoc, trimTrailingNonWord_append, List.takeWhile_append_dropWhile]⟩

/-- Characters of the trimmed word belong to the run it was trimmed from. -/
theorem mem_trimTrailingNonWord {wc : Char → Bool} {r : List Char} {x : Char}
    (h : x ∈ trimTrailingNonWord wc r) : x ∈ r := by
  have harr := trimTrailingNonWord_append wc r
  rw [← harr]
  exact List.mem_append_left _ h

/-- When the scan head is a word-class character, the greedy word match is
nonempty. -/
theorem trimTrailingNonWord_ne_nil {wc : Char → Bool} {c : Char} {rest : List Char}
    (h : wc c = true) :
    trimTrailingNonWord wc ((c :: rest).takeWhile (wordClassChar wc)) ≠ [] := by
  intro hnil
  have hq : wordClassChar wc c = true := by simp [wordClassChar, h]
  have hrun : (c :: rest).takeWhile (wordClassChar wc)
      = c :: rest.takeWhile (wordClassChar wc) := by
    simp [List.takeWhile_cons, hq]
  unfold trimTrailingNonWord at hnil
  rw [List.reverse_eq_nil_iff, List.dropWhile_eq_nil_iff] at hnil
  have hc := hnil c (by rw [hrun]; simp)
  simp [h] at hc

/-- Dropping the length of an initial segment leaves the tail. -/
theorem append_eq_drop {w t l : List Char} (h : w ++ t = l) : l.drop w.length = t := by
  subst h
  exact List.drop_left w t

/-- The scan of the empty text is empty, whatever the fuel. -/
theorem scanAux_nil (wc : Char → Bool) (fuel : Nat) : scanAux wc fuel [] = [] := by
  cases fuel <;> rfl

/-- `takeWhile` runs through an all-true initial segment. -/
theorem takeWhile_append_all {p : Char → Bool} :
    ∀ {s : List Char} (t : List Char), (∀ x ∈ s, p x = true) →
      (s ++ t).takeWhile p = s ++ t.takeWhile p := by
  intro s
  induction s with
  | nil => intro t _; simp
  | cons a s ih =>
    intro t h
    have ha := h a (List.mem_cons_self _ _)
    simp only [List.cons_append, List.takeWhile_cons, ha, if_true]
    rw [ih t fun x hx => h x (List.mem_cons_of_mem _ hx)]

/-- `dropWhile` runs through an all-true initial segment. -/
theorem dropWhile_append_all {p : Char → Bool} :
    ∀ {s : List Char} (t : List Char), (∀ x ∈ s, p x = true) →
      (s ++ t).dropWhile p = t.dropWhile p := by
  intro s
  induction s with
  | nil => intro t _; simp
  | cons a s ih =>
    intro t h
    have ha := h a (List.mem_cons_self _ _)
    simp only [List.cons_append, List.dropWhile_cons, ha, if_true]
    exact ih t fun x hx => h x (List.mem_cons_of_mem _ hx)

/-- A pipe never occurs in a greedy word match (the word class of both
patterns excludes it). -/
theorem pipe_not_mem_word {wc : Char → Bool} (hpipe : wc '|' = false)
    (l : List Char) :
    '|' ∉ trimTrailingNonWord wc (l.takeWhile (wordClassChar wc)) := by
  intro hmem
  have h1 : wordClassChar wc '|' = true :=
    List.mem_takeWhile_imp (mem_trimTrailingNonWord hmem)
  have h2 : wordClassChar wc '|' = false := by
    unfold wordClassChar
    rw [hpipe]
    decide
  rw [h2] at h1
  exact absurd h1 (by decide)

/-- A pipe never occurs in a separator match. -/
theorem pipe_not_mem_sep (wc : Char → Bool) (l : List Char) :
    '|' ∉ l.takeWhile (sepClassChar wc) := by
  intro hmem
  have h1 : sepClassChar wc '|' = true := List.mem_takeWhile_imp hmem
  unfold sepClassChar at h1
  simp at h1

/-- A pipe never occurs in the interior of an unchanged-span match. -/
theorem pipe_not_mem_inner (l : List Char) :
    '|' ∉ l.takeWhile fun x => x != '|' := by
  intro hmem
  have h1 := List.mem_takeWhile_imp hmem
  simp at h1

/-- The matches of a scan partition the text: concatenating what each match
consumed (skipped characters included) recovers the input exactly. -/
theorem scanAux_consumed_flatten (wc : Char → Bool) :
    ∀ (fuel : Nat) (l : List Char), l.length ≤ fuel →
      ((scanAux wc fuel l).map matchConsumed).flatten = l := by
  intro fuel
  induction fuel with
  | zero =>
    intro l h
    have hl : l = [] := List.eq_nil_of_length_eq_zero (Nat.le_zero.mp h)
    subst hl
    simp [scanAux]
  | succ n ih =>
    intro l h
    cases l with
    | nil => simp [scanAux]
    | cons c rest =>
      simp only [List.length_cons] at h
      simp only [scanAux]
      split
      · next h1 =>
        obtain ⟨t, hwt⟩ := word_match_decomp wc (c :: rest)
        have hwne := @trimTrailingNonWord_ne_nil wc c rest h1
        have hdrop := append_eq_drop hwt
        have hlen : t.length ≤ n := by
          have hl := congrArg List.length hwt
          simp only [List.length_append, List.length_cons] at hl
          have hwpos :
              0 < (trimTrailingNonWord wc
                ((c :: rest).takeWhile (wordClassChar wc))).length :=
            List.length_pos.mpr hwne
          omega
        simp only [List.map_cons, matchConsumed, List.flatten_cons]
        rw [hdrop, ih t hlen, hwt]
      · next h1 =>
        split
        · next h2 =>
          split
          · next hdw =>
            have hone : '|' ∉ rest := by
              rw [List.dropWhile_eq_nil_iff] at hdw
              intro hmem
              have := hdw '|' hmem
              simp at this
            simp only [List.map_cons, matchConsumed, List.flatten_cons,
              List.singleton_append]
            have hlen : rest.length ≤ n := by omega
            rw [ih rest hlen]
          · next hd rest2 hdw =>
            have hhd : hd = '|' := by
              have hf := dropWhile_head_false hdw
              simpa using hf
            have hrest :
                rest.takeWhile (fun x => x != '|') ++ (hd :: rest2) = rest := by
              rw [← hdw]
              exact List.takeWhile_append_dropWhile _ _
            have hlen : rest2.length ≤ n := by
              have hl := congrArg List.length hrest
              simp only [List.length_append, List.length_cons] at hl
              omega
            simp only [List.map_cons, matchConsumed, List.flatten_cons]
            rw [ih rest2 hlen]
            subst h2
            subst hhd
            rw [List.cons_append, List.append_assoc]
            simp only [List.singleton_append]
            rw [hrest]
        · next h2 =>
          have h1f : wc c = false := by simpa using h1
          have hsep : sepClassChar wc c = true := by
            unfold sepClassChar
            simp [h1f, h2]
          have hdecomp :
              (c :: rest).takeWhile (sepClassChar wc) ++
                (c :: rest).dropWhile (sepClassChar wc) = c :: rest :=
            List.takeWhile_append_dropWhile _ _
          have hdrop := append_eq_drop hdecomp
          have hne : (c :: rest).takeWhile (sepClassChar wc) ≠ [] := by
            simp [List.takeWhile_cons, hsep]
          have hlen : ((c :: rest).dropWhile (sepClassChar wc)).length ≤ n := by
            have hl := congrArg List.length hdecomp
            simp only [List.length_append, List.length_cons] at hl
            have hpos := List.length_pos.mpr hne
            omega
          simp only [List.map_cons, matchConsumed, List.flatten_cons]
          rw [hdrop, ih _ hlen, hdecomp]

/-- Partition property of the full scan. -/
theorem regex_scan_consumed_flatten (wc : Char → Bool) (l : List Char) :
    ((regex_scan wc l).map matchConsumed).flatten = l :=
  scanAux_consumed_flatten wc l.length l (Nat.le_refl _)

/-- Every match a scan produces is well formed (`matchOk`). -/
theorem scanAux_matchOk {wc : Char → Bool} (hpipe : wc '|' = false) :
    ∀ (fuel : Nat) (l : List Char) (m : RawMatch),
      m ∈ scanAux wc fuel l → matchOk m := by
  intro fuel
  induction fuel with
  | zero =>
    intro l m hm
    cases l <;> simp [scanAux] at hm
  | succ n ih =>
    intro l m hm
    cases l with
    | nil => simp [scanAux] at hm
    | cons c rest =>
      simp only [scanAux] at hm
      split at hm
      · next h1 =>
        rcases List.mem_cons.mp hm with rfl | hm'
        · exact ⟨@trimTrailingNonWord_ne_nil wc c rest h1, pipe_not_mem_word hpipe _⟩
        · exact ih _ m hm'
      · next h1 =>
        split at hm
        · next h2 =>
          split at hm
          · next hdw =>
            rcases List.mem_cons.mp hm with rfl | hm'
            · exact h2
            · exact ih _ m hm'
          · next hd rest2 hdw =>
            rcases List.mem_cons.mp hm with rfl | hm'
            · exact pipe_not_mem_inner rest
            · exact ih _ m hm'
        · next h2 =>
          rcases List.mem_cons.mp hm with rfl | hm'
          · have h1f : wc c = false := by simpa using h1
            have hsep : sepClassChar wc c = true := by
              unfold sepClassChar
              simp [h1f, h2]
            exact ⟨by simp [List.takeWhile_cons, hsep], pipe_not_mem_sep wc _⟩
          · exact ih _ m hm'

/-- Well-formedness of the matches of the full scan. -/
theorem regex_scan_matchOk {wc : Char → Bool} (hpipe : wc '|' = false)
    (l : List Char) : ∀ m ∈ regex_scan wc l, matchOk m :=
  fun m hm => scanAux_matchOk hpipe l.length l m hm

/-- When the text holds an even number of pipes, the scan never skips a
character: the unmatched-pipe case requires the one remaining pipe to be
the last, which would make the count odd. -/
theorem scanAux_no_skipped {wc : Char → Bool} (hpipe : wc '|' = false) :
    ∀ (fuel : Nat) (l : List Char), l.length ≤ fuel → l.count '|' % 2 = 0 →
      ∀ c, RawMatch.skipped c ∉ scanAux wc fuel l := by
  intro fuel
  induction fuel with
  | zero =>
    intro l h hcnt c
    cases l <;> simp [scanAux]
  | succ n ih =>
    intro l h hcnt c
    cases l with
    | nil => simp [scanAux]
    | cons c0 rest =>
      simp only [List.length_cons] at h
      simp only [scanAux]
      split
      · next h1 =>
        intro hm
        rcases List.mem_cons.mp hm with heq | hm'
        · exact RawMatch.noConfusion heq
        · obtain ⟨t, hwt⟩ := word_match_decomp wc (c0 :: rest)
          rw [append_eq_drop hwt] at hm'
          have hwne := @trimTrailingNonWord_ne_nil wc c0 rest h1
          have hwpos := List.length_pos.mpr hwne
          have hl := congrArg List.length hwt
          simp only [List.length_append, List.length_cons] at hl
          have hc := congrArg (List.count '|') hwt
          rw [List.count_append] at hc
          have hw0 : (trimTrailingNonWord wc
              ((c0 :: rest).takeWhile (wordClassChar wc))).count '|' = 0 :=
            List.count_eq_zero.mpr (pipe_not_mem_word hpipe _)
          rw [hw0] at hc
          exact ih t (by omega) (by omega) c hm'
      · next h1 =>
        split
        · next h2 =>
          split
          · next hdw =>
            exfalso
            rw [List.dropWhile_eq_nil_iff] at hdw
            have hrest0 : rest.count '|' = 0 := by
              apply List.count_eq_zero.mpr
              intro hmem
              have := hdw '|' hmem
              simp at this
            subst h2
            rw [List.count_cons] at hcnt
            simp [hrest0] at hcnt
          · next hd rest2 hdw =>
            intro hm
            rcases List.mem_cons.mp hm with heq | hm'
            · exact RawMatch.noConfusion heq
            · have hhd : hd = '|' := by
                have hf := dropWhile_head_false hdw
                simpa using hf
              subst h2
              subst hhd
              have hrest :
                  rest.takeWhile (fun x => x != '|') ++ ('|' :: rest2) = rest := by
                rw [← hdw]
                exact List.takeWhile_append_dropWhile _ _
              have hl := congrArg List.length hrest
              simp only [List.length_append, List.length_cons] at hl
              have hc := congrArg (List.count '|') hrest
              rw [List.count_append, List.count_cons_self] at hc
              have hi0 : (rest.takeWhile (fun x => x != '|')).count '|' = 0 :=
                List.count_eq_zero.mpr (pipe_not_mem_inner rest)
              rw [hi0] at hc
              rw [List.count_cons_self] at hcnt
              exact ih rest2 (by omega) (by omega) c hm'
        · next h2 =>
          intro hm
          rcases List.mem_cons.mp hm with heq | hm'
          · exact RawMatch.noConfusion heq
          · have h1f : wc c0 = false := by simpa using h1
            have hsep : sepClassChar wc c0 = true := by
              unfold sepClassChar
              simp [h1f, h2]
            have hdecomp :
                (c0 :: rest).takeWhile (sepClassChar wc) ++
                  (c0 :: rest).dropWhile (sepClassChar wc) = c0 :: rest :=
              List.takeWhile_append_dropWhile _ _
            rw [append_eq_drop hdecomp] at hm'
            have hne : (c0 :: rest).takeWhile (sepClassChar wc) ≠ [] := by
              simp [List.takeWhile_cons, hsep]
            have hpos := List.length_pos.mpr hne
            have hl := congrArg List.length hdecomp
            simp only [List.length_append, List.length_cons] at hl
            have hc := congrArg (List.count '|') hdecomp
            rw [List.count_append] at hc
            have hs0 : ((c0 :: rest).takeWhile (sepClassChar wc)).count '|' = 0 :=
              List.count_eq_zero.mpr (pipe_not_mem_sep wc _)
            rw [hs0] at hc
            exact ih _ (by omega) (by omega) c hm'

/-- No character of an even-pipe-count text is skipped by the full scan. -/
theorem regex_scan_no_skipped {wc : Char → Bool} (hpipe : wc '|' = false)
    (l : List Char) (h : l.count '|' % 2 = 0) :
    ∀ c, RawMatch.skipped c ∉ regex_scan wc l :=
  scanAux_no_skipped hpipe l.length l (Nat.le_refl _) h

/-- On a skip-free, well-formed match list, `_word_tokenize` (without
lowercasing) succeeds, and the reconstruction of its tokens is the
consumed text with all pipe characters removed. -/
theorem tokenize_assembly :
    ∀ ms : List RawMatch, (∀ m ∈ ms, matchOk m) →
      (∀ c, RawMatch.skipped c ∉ ms) →
      wordTokenizeList (ms.filterMap groupsOfMatch) false =
        Except.ok (ms.filterMap tokenOfMatch) ∧
      reconstructTokens (ms.filterMap tokenOfMatch) =
        ((ms.map matchConsumed).flatten).filter (fun c => c != '|') := by
  intro ms
  induction ms with
  | nil => intro _ _; exact ⟨rfl, rfl⟩
  | cons m ms ih =>
    intro hok hns
    have ihm := ih (fun x hx => hok x (List.mem_cons_of_mem _ hx))
      (fun c hc => hns c (List.mem_cons_of_mem _ hc))
    have hmok := hok m (List.mem_cons_self _ _)
    cases m with
    | skipped c => exact absurd (List.mem_cons_self _ _) (hns c)
    | word s =>
      obtain ⟨hne, hnp⟩ := hmok
      have hfilter : s.filter (fun c => c != '|') = s :=
        List.filter_eq_self.mpr fun a ha => by
          simp only [bne_iff_ne, ne_eq]
          intro heq
          exact hnp (heq ▸ ha)
      constructor
      · simp only [List.filterMap_cons, groupsOfMatch, tokenOfMatch]
        rw [wordTokenizeList]
        have hone : word_tokenize_one false (s, [], []) =
            Except.ok ([s], false) := by
          simp [word_tokenize_one, hne]
        rw [hone, ihm.1]
      · simp only [List.filterMap_cons, tokenOfMatch, List.map_cons,
          matchConsumed, List.flatten_cons, List.filter_append]
        simp only [reconstructTokens, List.map_cons, List.flatten_cons]
        have hrt : reconstructToken ([s], false) = s := by
          simp [reconstructToken]
        rw [hrt, hfilter]
        have := ihm.2
        simp only [reconstructTokens] at this
        rw [this]
    | sep s =>
      obtain ⟨hne, hnp⟩ := hmok
      have hfilter : s.filter (fun c => c != '|') = s :=
        List.filter_eq_self.mpr fun a ha => by
          simp only [bne_iff_ne, ne_eq]
          intro heq
          exact hnp (heq ▸ ha)
      constructor
      · simp only [List.filterMap_cons, groupsOfMatch, tokenOfMatch]
        rw [wordTokenizeList]
        have hone : word_tokenize_one false ([], [], s) =
            Except.ok ([s], false) := by
          simp [word_tokenize_one, hne]
        rw [hone, ihm.1]
      · simp only [List.filterMap_cons, tokenOfMatch, List.map_cons,
          matchConsumed, List.flatten_cons, List.filter_append]
        simp only [reconstructTokens, List.map_cons, List.flatten_cons]
        have hrt : reconstructToken ([s], false) = s := by
          simp [reconstructToken]
        rw [hrt, hfilter]
        have := ihm.2
        simp only [reconstructTokens] at this
        rw [this]
    | unchanged inner =>
      have hnp : '|' ∉ inner := hmok
      have hfilter : inner.filter (fun c => c != '|') = inner :=
        List.filter_eq_self.mpr fun a ha => by
          simp only [bne_iff_ne, ne_eq]
          intro heq
          exact hnp (heq ▸ ha)
      constructor
      · simp only [List.filterMap_cons, groupsOfMatch, tokenOfMatch]
        rw [wordTokenizeList]
        have hone : word_tokenize_one false ([], '|' :: (inner ++ ['|']), []) =
            Except.ok (inner.splitOn ' ', true) := by
          simp [word_tokenize_one, pySlice1m1]
        rw [hone, ihm.1]
      · simp only [List.filterMap_cons, tokenOfMatch, List.map_cons,
          matchConsumed, List.flatten_cons, List.filter_append]
        simp only [reconstructTokens, List.map_cons, List.flatten_cons]
        have hrt : reconstructToken (inner.splitOn ' ', true) = inner := by
          simp only [reconstructToken, if_true]
          exact List.intercalate_splitOn inner ' '
        rw [hrt]
        have hfl : ('|' :: (inner ++ ['|'])).filter (fun c => c != '|') = inner := by
          simp [List.filter_cons, List.filter_append, hfilter]
        rw [hfl]
        have := ihm.2
        simp only [reconstructTokens] at this
        rw [this]

/-- C3 (counterexample): reconstruction does not return the input exactly:
on the balanced input `"|a|"` (which contains no word token, so no casing
is involved) the tokenizer yields the protected token `(["a"], true)` and
reconstruction gives `"a"`, not `"|a|"` — the pipe delimiters are stripped. -/
theorem tokenizer_reconstruction_not_input_cx :
    (any_locale_word_tokenize (String.toList "|a|")).map reconstructTokens ≠
      Except.ok (String.toList "|a|") ∧
    (any_locale_word_tokenize (String.toList "|a|")).map reconstructTokens =
      Except.ok (String.toList "a") := by
  exact ⟨by decide, by decide⟩

/-- C3 (amended): for every input with balanced pipe delimiters (an even
number of pipe characters), concatenating all token pieces emitted by
`any_locale_word_tokenize` (protected pieces rejoined with a single ASCII
space) reconstructs the input with the pipe delimiter characters removed;
no casing is involved since this tokenizer does not lowercase. -/
theorem tokenizer_reconstruction_strips_pipes (l : List Char)
    (h : l.count '|' % 2 = 0) :
    (any_locale_word_tokenize l).map reconstructTokens =
      Except.ok (l.filter fun c => c != '|') := by
  have hpipe : isLatinAll '|' = false := by decide
  have hok := tokenize_assembly (regex_scan isLatinAll l)
    (regex_scan_matchOk hpipe l)
    (regex_scan_no_skipped hpipe l h)
  unfold any_locale_word_tokenize regex_findall
  rw [hok.1]
  simp only [Except.map]
  rw [hok.2, regex_scan_consumed_flatten]

/-- Witness for C3 (amended) at a concrete balanced input. -/
theorem tokenizer_reconstruction_strips_pipes_witness :
    (any_locale_word_tokenize (String.toList "|a| b")).map reconstructTokens =
      Except.ok ((String.toList "|a| b").filter fun c => c != '|') :=
  tokenizer_reconstruction_strips_pipes (String.toList "|a| b") (by decide)

/-- C4 (counterexample): a pipe with no later closing pipe belongs to no
match at all: on the input `"|a"`, `findall` returns only the word match
`"a"` and the concatenation of all match texts is not the input — the pipe
is dropped rather than falling through to separator or word matching. -/
theorem unmatched_pipe_dropped_cx :
    regex_findall isLatinAll (String.toList "|a") = [(['a'], [], [])] ∧
    ((regex_findall isLatinAll (String.toList "|a")).map
        (fun g => g.1 ++ g.2.1 ++ g.2.2)).flatten ≠ String.toList "|a" := by
  exact ⟨by decide, by decide⟩

/-- C4 (amended): the scan partitions every input into its matches plus
skipped characters, and the only characters ever skipped are pipes without
a matching closing pipe; every other character belongs to exactly one
match. -/
theorem scan_partition_and_skipped_only_pipes (l : List Char) :
    ((regex_scan isLatinAll l).map matchConsumed).flatten = l ∧
    skippedOnlyPipes (regex_scan isLatinAll l) = true := by
  refine ⟨regex_scan_consumed_flatten isLatinAll l, ?_⟩
  unfold skippedOnlyPipes
  rw [List.all_eq_true]
  intro m hm
  have hok := regex_scan_matchOk (by decide) l m hm
  cases m with
  | word s => rfl
  | unchanged inner => rfl
  | sep s => rfl
  | skipped c =>
    have hc : c = '|' := hok
    subst hc
    rfl

/-- The scan of a single well-formed pipe-delimited span is exactly one
unchanged match holding the interior. -/
theorem scan_of_pipe_span {wc : Char → Bool} (hwc : wc '|' = false)
    (s : List Char) (hs : ∀ x ∈ s, (x != '|') = true) (fuel : Nat) :
    scanAux wc (fuel + 1) ('|' :: (s ++ ['|'])) = [RawMatch.unchanged s] := by
  have hdw : (s ++ ['|']).dropWhile (fun x => x != '|') = ['|'] := by
    rw [dropWhile_append_all _ hs]
    rfl
  have htw : (s ++ ['|']).takeWhile (fun x => x != '|') = s := by
    rw [takeWhile_append_all _ hs]
    simp [List.takeWhile_cons]
  simp [scanAux, hwc, hdw, htw, scanAux_nil]

/-- C10: a pipe-delimited protected span whose interior is empty or holds
consecutive spaces produces a protected token with empty pieces, never
filtered out: `"||"` yields `([""], true)`, `"|a  b|"` yields
`(["a", "", "b"], true)`, and in general the token pieces of a span are
exactly the interior split on single ASCII spaces, empties included. -/
theorem protected_span_empty_pieces :
    any_locale_word_tokenize (String.toList "||") =
      Except.ok [([([] : List Char)], true)] ∧
    any_locale_word_tokenize (String.toList "|a  b|") =
      Except.ok [([['a'], [], ['b']], true)] ∧
    (∀ s : List Char, '|' ∉ s →
      any_locale_word_tokenize ('|' :: (s ++ ['|'])) =
        Except.ok [(s.splitOn ' ', true)]) := by
  refine ⟨by decide, by decide, ?_⟩
  intro s hs
  have hq : ∀ x ∈ s, (x != '|') = true := fun x hx => by
    simp only [bne_iff_ne, ne_eq]
    intro heq
    exact hs (heq ▸ hx)
  have hscan : scanAux isLatinAll ('|' :: (s ++ ['|'])).length
      ('|' :: (s ++ ['|'])) = [RawMatch.unchanged s] := by
    have hlen : ('|' :: (s ++ ['|'])).length = (s.length + 1) + 1 := by
      simp [List.length_append]
    rw [hlen]
    exact scan_of_pipe_span (by decide) s hq (s.length + 1)
  unfold any_locale_word_tokenize regex_findall regex_scan
  rw [hscan]
  simp only [List.filterMap_cons, List.filterMap_nil, groupsOfMatch]
  rw [wordTokenizeList]
  have hone : word_tokenize_one false ([], '|' :: (s ++ ['|']), []) =
      Except.ok (s.splitOn ' ', true) := by
    simp [word_tokenize_one, pySlice1m1]
  rw [hone]
  rfl

/-- Witness for C10 at the interior `"a  b"`. -/
theorem protected_span_empty_pieces_witness :
    any_locale_word_tokenize ('|' :: (String.toList "a  b" ++ ['|'])) =
      Except.ok [((String.toList "a  b").splitOn ' ', true)] :=
  protected_span_empty_pieces.2.2 (String.toList "a  b") (by decide)
